import Mathlib

/-!
Shallow embedding of `src/toadjacency.py`: a script that reads a
comma-separated edge list (source,target,type per line), builds a
directed adjacency map (node → ordered list of targets), and prints
one line per node to standard output.

The script's per-line behaviour `line.strip().split(',')` is embedded
with structural recursion over the character list, so every definition
evaluates by `decide` / `rfl`.
-/

namespace ToAdjacency

/-- An edge as unpacked on line 9 of the script: `(source, target, type)`. -/
abbrev Edge := String × String × String

/-- The adjacency map: an insertion-ordered association list from node
identifier to its ordered list of targets (the Python dict with list
values, keys in insertion order). -/
abbrev AdjMap := List (String × List String)

/-- Python's whitespace set for `str.strip()`:
space, tab, newline, carriage return, vertical tab, form feed. -/
def isSpace (c : Char) : Bool :=
  c = ' ' || c = '\t' || c = '\n' || c = '\r' || c = '\x0b' || c = '\x0c'

/-- `str.strip()`: drop leading and trailing whitespace characters. -/
def stripChars (cs : List Char) : List Char :=
  ((cs.dropWhile isSpace).reverse.dropWhile isSpace).reverse

/-- `str.split(',')`: split on every comma, keeping empty fields;
the empty string yields one (empty) field. -/
def splitFields : List Char → List (List Char)
  | [] => [[]]
  | c :: cs =>
    if c = ',' then [] :: splitFields cs
    else
      match splitFields cs with
      | [] => [[c]]
      | f :: fs => (c :: f) :: fs

/-- Line 9 of the script: `(source,target,type) = line.strip().split(',')`.
Returns `none` exactly when the tuple unpacking would raise (field count ≠ 3). -/
def parseLine (line : String) : Option Edge :=
  match splitFields (stripChars line.toList) with
  | [s, t, ty] => some (⟨s⟩, ⟨t⟩, ⟨ty⟩)
  | _ => none

/-- Dictionary lookup: first entry whose key matches. -/
def lookupKey (k : String) : AdjMap → Option (List String)
  | [] => none
  | (k', v) :: m => if k' = k then some v else lookupKey k m

/-- `k in adjacency_lists` (dict key membership). -/
def hasKey (m : AdjMap) (k : String) : Bool :=
  (lookupKey k m).isSome

/-- Lines 10-13 of the script: `if k not in adjacency_lists:
adjacency_lists[k] = []` — insert an empty list for a missing key. -/
def ensureKey (m : AdjMap) (k : String) : AdjMap :=
  if hasKey m k then m else m ++ [(k, [])]

/-- Line 15 of the script: `adjacency_lists[source].append(target)`. -/
def appendTarget (m : AdjMap) (s t : String) : AdjMap :=
  m.map (fun p => if p.1 = s then (p.1, p.2 ++ [t]) else p)

/-- Lines 10-15 of the script for one parsed edge: ensure the source key,
ensure the target key, then append the target to the source's list. -/
def step (m : AdjMap) (s t : String) : AdjMap :=
  appendTarget (ensureKey (ensureKey m s) t) s t

/-- One iteration of the read loop (lines 8-15): parse the line,
propagate failure, otherwise update the map. -/
def processLine (m : AdjMap) (line : String) : Option AdjMap :=
  match parseLine line with
  | none => none
  | some (s, t, _) => some (step m s t)

/-- The read loop of lines 8-15, threading the map through the lines. -/
def buildFrom (m : AdjMap) : List String → Option AdjMap
  | [] => some m
  | l :: ls =>
    match processLine m l with
    | none => none
    | some m' => buildFrom m' ls

/-- The whole build pass: `adjacency_lists` as it stands after the first
loop, starting from the empty dict of line 5; `none` models the run
aborting with the unpacking error. -/
def adjacency_lists (lines : List String) : Option AdjMap :=
  buildFrom [] lines

/-- Lines 18-21 for a single key: the key, then for each target a space
followed by the target (no trailing newline here). -/
def renderEntry (p : String × List String) : String :=
  p.1 ++ String.join (p.2.map (fun t => " " ++ t))

/-- Lines 17-22: the full text written to standard output, one line
(with terminating newline, line 22) per key, keys in map order. -/
def renderOutput (m : AdjMap) : String :=
  String.join (m.map (fun p => renderEntry p ++ "\n"))

/-- The whole program on a list of input lines: `none` when the build
aborts (in which case nothing has been written, since the output loop
only starts after the read loop finishes), otherwise the output text. -/
def run (lines : List String) : Option String :=
  (adjacency_lists lines).map renderOutput

/-! ### Derived (specification-side) descriptions, used to state claims -/

/-- Parse every line; `some` exactly when the run does not abort. -/
def parseAll : List String → Option (List Edge)
  | [] => some []
  | l :: ls =>
    match parseLine l, parseAll ls with
    | some e, some es => some (e :: es)
    | _, _ => none

/-- The read loop over already-parsed edges. -/
def buildEdges (m : AdjMap) : List Edge → AdjMap
  | [] => m
  | e :: es => buildEdges (step m e.1 e.2.1) es

/-- The targets of the edges whose source is `k`, in input order. -/
def targetsOf (es : List Edge) (k : String) : List String :=
  (es.filter (fun e => e.1 == k)).map (fun e => e.2.1)

/-- Whether `k` occurs in `es` as a source or a target. -/
def touchesB (es : List Edge) (k : String) : Bool :=
  es.any (fun e => e.1 == k || e.2.1 == k)

/-- The source's current list, defaulting to empty for an absent key. -/
def getSeq (m : AdjMap) (k : String) : List String :=
  (lookupKey k m).getD []

/-! ### Lookup lemmas for the map operations -/

lemma lookupKey_append (k : String) (m m' : AdjMap) :
    lookupKey k (m ++ m') =
      match lookupKey k m with
      | some v => some v
      | none => lookupKey k m' := by
  induction m with
  | nil => simp [lookupKey]
  | cons p m ih =>
    obtain ⟨a, v⟩ := p
    by_cases h : a = k <;> simp [lookupKey, h, ih]

lemma lookupKey_ensure (m : AdjMap) (a k : String) :
    lookupKey k (ensureKey m a) =
      match lookupKey k m with
      | some v => some v
      | none => if a = k then some [] else none := by
  unfold ensureKey hasKey
  by_cases h : (lookupKey a m).isSome
  · simp only [h, if_pos]
    cases hm : lookupKey k m with
    | some v => rfl
    | none =>
      by_cases hak : a = k
      · subst hak
        rw [hm] at h
        simp at h
      · simp [hak]
  · simp only [h, if_neg, Bool.not_eq_true]
    rw [lookupKey_append]
    cases hm : lookupKey k m with
    | some v => rfl
    | none => simp [lookupKey]

lemma lookupKey_cons (x : String) (y : List String) (l : AdjMap) (k : String) :
    lookupKey k ((x, y) :: l) = if x = k then some y else lookupKey k l := rfl

lemma lookupKey_appendTarget (m : AdjMap) (s t k : String) :
    lookupKey k (appendTarget m s t) =
      (lookupKey k m).map (fun v => if k = s then v ++ [t] else v) := by
  induction m with
  | nil => simp [lookupKey, appendTarget]
  | cons p m ih =>
    obtain ⟨a, v⟩ := p
    simp only [appendTarget] at ih
    by_cases has : a = s
    · subst has
      by_cases hak : a = k
      · subst hak
        simp [appendTarget, lookupKey_cons, ih]
      · simp [appendTarget, lookupKey_cons, hak, Ne.symm hak, ih]
    · by_cases hak : a = k
      · subst hak
        simp [appendTarget, lookupKey_cons, has, Ne.symm has, ih]
      · simp [appendTarget, lookupKey_cons, has, hak, ih]

lemma lookupKey_step (m : AdjMap) (s t k : String) :
    lookupKey k (step m s t) =
      if k = s then some (getSeq m s ++ [t])
      else if k = t then some (getSeq m t)
      else lookupKey k m := by
  unfold step
  rw [lookupKey_appendTarget, lookupKey_ensure, lookupKey_ensure]
  by_cases hks : k = s
  · subst hks
    cases hm : lookupKey k m <;> simp [getSeq, hm]
  · by_cases hkt : k = t
    · subst hkt
      cases hm : lookupKey k m <;>
        simp [getSeq, hm, hks, Ne.symm hks]
    · cases hm : lookupKey k m <;>
        simp [hm, hks, hkt, Ne.symm hks, Ne.symm hkt]

lemma targetsOf_cons (s t ty k : String) (es : List Edge) :
    targetsOf ((s, t, ty) :: es) k =
      if s = k then t :: targetsOf es k else targetsOf es k := by
  by_cases h : s = k <;> simp [targetsOf, List.filter_cons, h]

lemma touchesB_cons (s t ty k : String) (es : List Edge) :
    touchesB ((s, t, ty) :: es) k =
      (s == k || t == k || touchesB es k) := by
  simp [touchesB, List.any_cons, Bool.or_assoc]

/-- Master lemma: looking up any key after running the read loop over a
list of parsed edges, starting from an arbitrary map. -/
lemma lookupKey_buildEdges (es : List Edge) (m : AdjMap) (k : String) :
    lookupKey k (buildEdges m es) =
      match lookupKey k m with
      | some v => some (v ++ targetsOf es k)
      | none => if touchesB es k then some (targetsOf es k) else none := by
  induction es generalizing m with
  | nil =>
    cases hm : lookupKey k m <;> simp [buildEdges, targetsOf, touchesB, hm]
  | cons e es ih =>
    obtain ⟨s, t, ty⟩ := e
    show lookupKey k (buildEdges (step m s t) es) = _
    rw [ih, lookupKey_step, targetsOf_cons, touchesB_cons]
    by_cases hks : k = s
    · subst hks
      cases hm : lookupKey k m <;> simp [getSeq, hm]
    · by_cases hkt : k = t
      · subst hkt
        cases hm : lookupKey k m <;>
          simp [getSeq, hm, hks, Ne.symm hks]
      · cases hm : lookupKey k m <;>
          simp [hm, hks, hkt, Ne.symm hks, Ne.symm hkt]

/-! ### Relating the line-level loop to the edge-level loop -/

lemma buildFrom_eq (lines : List String) (m : AdjMap) :
    buildFrom m lines =
      match parseAll lines with
      | some es => some (buildEdges m es)
      | none => none := by
  induction lines generalizing m with
  | nil => rfl
  | cons l ls ih =>
    show (match processLine m l with
          | none => none
          | some m' => buildFrom m' ls) = _
    unfold processLine
    cases hp : parseLine l with
    | none => simp [parseAll, hp]
    | some e =>
      obtain ⟨s, t, ty⟩ := e
      show buildFrom (step m s t) ls = _
      rw [ih]
      cases hes : parseAll ls <;> simp [parseAll, hp, hes, buildEdges]

lemma parseAll_mem (lines : List String) (es : List Edge)
    (h : parseAll lines = some es) (l : String) (hl : l ∈ lines) :
    ∃ e, parseLine l = some e := by
  induction lines generalizing es with
  | nil => cases hl
  | cons a ls ih =>
    unfold parseAll at h
    cases hp : parseLine a with
    | none => rw [hp] at h; cases h
    | some e =>
      rw [hp] at h
      cases hes : parseAll ls with
      | none => rw [hes] at h; cases h
      | some es' =>
        rcases List.mem_cons.mp hl with rfl | hl'
        · exact ⟨e, hp⟩
        · exact ih es' hes hl'

lemma adjacency_lists_none (lines : List String) (l : String)
    (hl : l ∈ lines) (hp : parseLine l = none) :
    adjacency_lists lines = none := by
  unfold adjacency_lists
  rw [buildFrom_eq]
  cases hes : parseAll lines with
  | none => rfl
  | some es =>
    obtain ⟨e, he⟩ := parseAll_mem lines es hes l hl
    rw [hp] at he
    cases he

/-- The central description of the built map: a key is present exactly
when it occurs in the parsed input, and its list is exactly the targets
of the edges whose source it is, in input order. -/
lemma lookupKey_adjacency (lines : List String) (es : List Edge)
    (m : AdjMap) (hes : parseAll lines = some es)
    (hm : adjacency_lists lines = some m) (k : String) :
    lookupKey k m = if touchesB es k then some (targetsOf es k) else none := by
  unfold adjacency_lists at hm
  rw [buildFrom_eq, hes] at hm
  obtain rfl : buildEdges [] es = m := by injection hm
  rw [lookupKey_buildEdges]
  rfl

lemma mem_targetsOf (es : List Edge) (k t : String) :
    t ∈ targetsOf es k ↔ ∃ ty, (k, t, ty) ∈ es := by
  constructor
  · intro h
    simp only [targetsOf, List.mem_map, List.mem_filter] at h
    obtain ⟨⟨s', t', ty'⟩, ⟨hmem, hsrc⟩, htgt⟩ := h
    simp only [beq_iff_eq] at hsrc
    cases hsrc
    cases htgt
    exact ⟨ty', hmem⟩
  · rintro ⟨ty, hmem⟩
    simp only [targetsOf, List.mem_map, List.mem_filter]
    exact ⟨(k, t, ty), ⟨hmem, by simp⟩, rfl⟩

lemma touchesB_of_mem_src (es : List Edge) (e : Edge) (he : e ∈ es) :
    touchesB es e.1 = true := by
  simp only [touchesB, List.any_eq_true]
  exact ⟨e, he, by simp⟩

lemma touchesB_of_mem_tgt (es : List Edge) (e : Edge) (he : e ∈ es) :
    touchesB es e.2.1 = true := by
  simp only [touchesB, List.any_eq_true]
  exact ⟨e, he, by simp⟩

lemma count_targetsOf (es : List Edge) (s t : String) :
    (targetsOf es s).count t =
      es.countP (fun e => e.1 == s && e.2.1 == t) := by
  induction es with
  | nil => rfl
  | cons e es ih =>
    obtain ⟨a, b, c⟩ := e
    by_cases ha : a = s
    · subst ha
      by_cases hb : b = t <;>
        simp [targetsOf_cons, List.count_cons, List.countP_cons, hb, ih]
    · simp [targetsOf_cons, List.countP_cons, ha, Ne.symm ha, ih]

lemma parseAll_of_adjacency (lines : List String) (m : AdjMap)
    (hm : adjacency_lists lines = some m) :
    ∃ es, parseAll lines = some es ∧ m = buildEdges [] es := by
  unfold adjacency_lists at hm
  rw [buildFrom_eq] at hm
  cases hes : parseAll lines with
  | none => rw [hes] at hm; cases hm
  | some es =>
    rw [hes] at hm
    exact ⟨es, rfl, (Option.some_inj.mp hm).symm⟩

/-- Shared helper: on a successful run, any key's stored list is exactly
the targets of the input edges whose source is that key, in input order. -/
lemma seq_eq_targetsOf (lines : List String) (es : List Edge) (m : AdjMap)
    (hes : parseAll lines = some es) (hm : adjacency_lists lines = some m)
    (s : String) (seq : List String) (hseq : lookupKey s m = some seq) :
    seq = targetsOf es s := by
  have h := lookupKey_adjacency lines es m hes hm s
  rw [hseq] at h
  by_cases hs : touchesB es s = true
  · rw [if_pos hs] at h
    exact Option.some_inj.mp h
  · rw [if_neg hs] at h
    cases h

lemma parseLine_eq_none_iff (line : String) :
    parseLine line = none ↔
      (splitFields (stripChars line.toList)).length ≠ 3 := by
  unfold parseLine
  rcases h : splitFields (stripChars line.toList) with
    _ | ⟨a, _ | ⟨b, _ | ⟨c, _ | d⟩⟩⟩ <;> simp

/-- The projection of a parsed edge that the build loop actually uses:
source and target, the type field dropped. -/
def projST (e : Edge) : String × String := (e.1, e.2.1)

lemma processLine_eq_projST (m : AdjMap) (l : String) :
    processLine m l =
      match (parseLine l).map projST with
      | none => none
      | some (s, t) => some (step m s t) := by
  unfold processLine
  cases parseLine l with
  | none => rfl
  | some e =>
    obtain ⟨s, t, ty⟩ := e
    rfl

/-! ### The claims -/

/-- Claim C1: for every successfully processed input and every edge
(s,t,_) in it, t is appended to s's sequence only: after the build, t
appears in s's adjacency sequence, and s does not appear in t's
sequence unless a separate edge (t,s,_) occurs in the input. -/
theorem claim_C1 (lines : List String) (es : List Edge) (m : AdjMap)
    (hes : parseAll lines = some es) (hm : adjacency_lists lines = some m)
    (s t ty : String) (he : (s, t, ty) ∈ es) :
    (∃ seq, lookupKey s m = some seq ∧ t ∈ seq) ∧
    ((∀ ty', (t, s, ty') ∉ es) →
      ∀ seq', lookupKey t m = some seq' → s ∉ seq') := by
  constructor
  · have hs := lookupKey_adjacency lines es m hes hm s
    rw [if_pos (touchesB_of_mem_src es (s, t, ty) he)] at hs
    exact ⟨targetsOf es s, hs, (mem_targetsOf es s t).mpr ⟨ty, he⟩⟩
  · intro hno seq' hseq' hmem
    have h' := seq_eq_targetsOf lines es m hes hm t seq' hseq'
    rw [h'] at hmem
    obtain ⟨ty', hmem'⟩ := (mem_targetsOf es t s).mp hmem
    exact hno ty' hmem'

theorem claim_C1_witness :
    ∃ seq, lookupKey "a" [("a", ["b"]), ("b", [])] = some seq ∧ "b" ∈ seq := by
  have h := claim_C1 ["a,b,x"] [("a", "b", "x")] [("a", ["b"]), ("b", [])]
    (by decide) (by decide) "a" "b" "x" (by decide)
  exact h.1

/-- Claim C2: for every successfully processed input and every node s,
the adjacency sequence of s is exactly the list of target fields of the
input edges whose source is s, in input order, duplicates preserved: an
edge (s,t,_) occurring k times puts t into s's sequence k times. -/
theorem claim_C2 (lines : List String) (es : List Edge) (m : AdjMap)
    (hes : parseAll lines = some es) (hm : adjacency_lists lines = some m)
    (s : String) (seq : List String) (hseq : lookupKey s m = some seq) :
    seq = targetsOf es s ∧
    ∀ t, seq.count t = es.countP (fun e => e.1 == s && e.2.1 == t) := by
  have h := seq_eq_targetsOf lines es m hes hm s seq hseq
  refine ⟨h, fun t => ?_⟩
  rw [h]
  exact count_targetsOf es s t

theorem claim_C2_witness :
    ["b", "b"] = targetsOf [("a", "b", "x"), ("a", "b", "x")] "a" ∧
    List.count "b" ["b", "b"] =
      List.countP (fun e => e.1 == "a" && e.2.1 == "b")
        [("a", "b", "x"), ("a", "b", "x")] := by
  have h := claim_C2 ["a,b,x", "a,b,x"] [("a", "b", "x"), ("a", "b", "x")]
    [("a", ["b", "b"]), ("b", [])] (by decide) (by decide) "a" ["b", "b"]
    (by decide)
  exact ⟨h.1, h.2 "b"⟩

/-- Claim C3: for every successfully processed input and every edge
(s,t,_) in it, both s and t end up as keys of the adjacency map,
regardless of where in the input the edge occurs; a node seen only as a
target has an empty sequence. -/
theorem claim_C3 (lines : List String) (es : List Edge) (m : AdjMap)
    (hes : parseAll lines = some es) (hm : adjacency_lists lines = some m) :
    (∀ s t ty, (s, t, ty) ∈ es →
      (lookupKey s m).isSome ∧ (lookupKey t m).isSome) ∧
    (∀ k, (∀ e ∈ es, e.1 ≠ k) → (∃ e ∈ es, e.2.1 = k) →
      lookupKey k m = some []) := by
  constructor
  · intro s t ty he
    constructor
    · rw [lookupKey_adjacency lines es m hes hm s,
        if_pos (touchesB_of_mem_src es (s, t, ty) he)]
      rfl
    · rw [lookupKey_adjacency lines es m hes hm t,
        if_pos (touchesB_of_mem_tgt es (s, t, ty) he)]
      rfl
  · rintro k hnotsrc ⟨e, he, hek⟩
    have htk : touchesB es k = true := hek ▸ touchesB_of_mem_tgt es e he
    rw [lookupKey_adjacency lines es m hes hm k, if_pos htk]
    have hfil : es.filter (fun e => e.1 == k) = [] := by
      rw [List.filter_eq_nil_iff]
      intro e' he'
      simp [hnotsrc e' he']
    simp [targetsOf, hfil]

theorem claim_C3_witness :
    ((lookupKey "a" [("a", ["b"]), ("b", [])]).isSome ∧
      (lookupKey "b" [("a", ["b"]), ("b", [])]).isSome) ∧
    lookupKey "b" [("a", ["b"]), ("b", [])] = some [] := by
  have h := claim_C3 ["a,b,x"] [("a", "b", "x")] [("a", ["b"]), ("b", [])]
    (by decide) (by decide)
  exact ⟨h.1 "a" "b" "x" (by decide), h.2 "b" (by decide) (by decide)⟩

/-- Claim C4: a line fails with the fatal format error exactly when it
does not split (after stripping) into three comma-separated fields; a
failing line aborts the whole run, and a three-field line is always
accepted (the third field is never inspected). -/
theorem claim_C4 (line : String) :
    (parseLine line = none ↔
      (splitFields (stripChars line.toList)).length ≠ 3) ∧
    (∀ lines, line ∈ lines → parseLine line = none →
      adjacency_lists lines = none) := by
  exact ⟨parseLine_eq_none_iff line,
    fun lines hl hp => adjacency_lists_none lines line hl hp⟩

theorem claim_C4_witness :
    parseLine "a,b" = none ∧ adjacency_lists ["x,y,z", "a,b"] = none := by
  have h := claim_C4 "a,b"
  have hp : parseLine "a,b" = none := h.1.mpr (by decide)
  exact ⟨hp, h.2 ["x,y,z", "a,b"] (by decide) hp⟩

/-- Claim C5: if any input line fails to split into exactly three
fields, the whole run yields no output at all: the output text exists
only when the full build pass over every line succeeds. -/
theorem claim_C5 (lines : List String)
    (h : ∃ l ∈ lines, parseLine l = none) :
    run lines = none := by
  obtain ⟨l, hl, hp⟩ := h
  unfold run
  rw [adjacency_lists_none lines l hl hp]
  rfl

theorem claim_C5_witness : run ["a,b,x", "a,b"] = none := by
  exact claim_C5 ["a,b,x", "a,b"] ⟨"a,b", by decide, by decide⟩

/-- Claim C6: the output is one line per key — the key, a space before
each target of its sequence, and a newline; an empty sequence prints
just the identifier and a newline. On the scenario input
a,b,x / b,c,y / a,c,x the output is exactly the lines
"a b c", "b c", "c" (here in insertion order). -/
theorem claim_C6 :
    run ["a,b,x", "b,c,y", "a,c,x"] = some "a b c\nb c\nc\n" ∧
    (∀ k : String, renderEntry (k, []) ++ "\n" = k ++ "\n") ∧
    (∀ m : AdjMap,
      renderOutput m = String.join (m.map (fun p => renderEntry p ++ "\n"))) := by
  refine ⟨by decide, fun k => ?_, fun m => rfl⟩
  show k ++ String.join [] ++ "\n" = k ++ "\n"
  simp [String.join]

/-- Claim C7: each occurrence of a self-loop edge (s,s,_) contributes
exactly one occurrence of s to s's own sequence: the number of times s
occurs in its own sequence equals the number of (s,s,_) edges in the
input, so key creation never discards or duplicates the appended entry. -/
theorem claim_C7 (lines : List String) (es : List Edge) (m : AdjMap)
    (hes : parseAll lines = some es) (hm : adjacency_lists lines = some m)
    (s : String) (seq : List String) (hseq : lookupKey s m = some seq) :
    seq.count s = es.countP (fun e => e.1 == s && e.2.1 == s) := by
  rw [seq_eq_targetsOf lines es m hes hm s seq hseq]
  exact count_targetsOf es s s

theorem claim_C7_witness :
    List.count "s" ["s"] =
      List.countP (fun e => e.1 == "s" && e.2.1 == "s") [("s", "s", "x")] := by
  exact claim_C7 ["s,s,x"] [("s", "s", "x")] [("s", ["s"])]
    (by decide) (by decide) "s" ["s"] (by decide)

/-- Claim C8: the type field never influences the result — two inputs
whose lines carry the same source and target fields (and fail on the
same lines), differing only in the discarded third field, produce the
same output text and the same success/failure outcome. -/
theorem claim_C8 (lines₁ lines₂ : List String)
    (h : List.Forall₂
      (fun a b => (parseLine a).map projST = (parseLine b).map projST)
      lines₁ lines₂) :
    run lines₁ = run lines₂ := by
  unfold run adjacency_lists
  suffices hb : ∀ m, buildFrom m lines₁ = buildFrom m lines₂ by rw [hb]
  induction h with
  | nil => intro m; rfl
  | @cons a b l₁ l₂ hab htl ih =>
    intro m
    show (match processLine m a with
          | none => none
          | some m' => buildFrom m' l₁) =
        (match processLine m b with
          | none => none
          | some m' => buildFrom m' l₂)
    rw [processLine_eq_projST, processLine_eq_projST, hab]
    cases hp : (parseLine b).map projST with
    | none => rfl
    | some p =>
      obtain ⟨s, t⟩ := p
      exact ih (step m s t)

theorem claim_C8_witness : run ["a,b,x"] = run ["a,b,y"] := by
  exact claim_C8 ["a,b,x"] ["a,b,y"]
    (List.Forall₂.cons (by decide) List.Forall₂.nil)

/-- Claim C9: the built map is closed under its own target references —
every identifier occurring in any stored sequence is itself a key of
the map (this holds for the map built from any list of lines, hence
after every prefix of the input). -/
theorem claim_C9 (lines : List String) (m : AdjMap)
    (hm : adjacency_lists lines = some m) (k : String) (seq : List String)
    (t : String) (hk : lookupKey k m = some seq) (ht : t ∈ seq) :
    (lookupKey t m).isSome := by
  obtain ⟨es, hes, _⟩ := parseAll_of_adjacency lines m hm
  have hseq := seq_eq_targetsOf lines es m hes hm k seq hk
  rw [hseq] at ht
  obtain ⟨ty, hmem⟩ := (mem_targetsOf es k t).mp ht
  rw [lookupKey_adjacency lines es m hes hm t,
    if_pos (touchesB_of_mem_tgt es (k, t, ty) hmem)]
  rfl

theorem claim_C9_witness :
    (lookupKey "b" [("a", ["b"]), ("b", [])]).isSome := by
  exact claim_C9 ["a,b,x"] [("a", ["b"]), ("b", [])] (by decide)
    "a" ["b"] "b" (by decide) (by decide)

/-- Claim C10: an empty or whitespace-only line is not skipped — after
stripping it becomes empty, which splits into a single (empty) field,
so the run aborts with the format error like any malformed line. -/
theorem claim_C10 (line : String) (h : stripChars line.toList = []) :
    splitFields (stripChars line.toList) = [[]] ∧
    parseLine line = none ∧
    ∀ lines, line ∈ lines → adjacency_lists lines = none := by
  have h1 : splitFields (stripChars line.toList) = [[]] := by
    rw [h]
    rfl
  have h2 : parseLine line = none := by
    unfold parseLine
    rw [h1]
  exact ⟨h1, h2, fun lines hl => adjacency_lists_none lines line hl h2⟩

theorem claim_C10_witness :
    parseLine " \t " = none ∧
      adjacency_lists ["a,b,c", " \t "] = none := by
  have h := claim_C10 " \t " (by decide)
  exact ⟨h.2.1, h.2.2 ["a,b,c", " \t "] (by decide)⟩

end ToAdjacency
